import Mathlib

/-!
Verification development for the Notion-to-Hugo multilingual publisher script.
Strings of the JavaScript source are modelled as lists of characters.
The segmentation regex (fenced or inline code), the stateful global-flag
regex test used inside translateBody, the quote-stripping post-processing,
and the per-document orchestration of main are embedded as executable
definitions below, followed by theorems about the claims of the spec.
-/

namespace NotionPublish

/-- The backtick character, code point 96, written via Char.ofNat because it
delimits code in the scripts markdown bodies. -/
def bq : Char := Char.ofNat 96

/-- The double quote character, code point 34. -/
def dq : Char := Char.ofNat 34

/-- The backslash character, code point 92. -/
def bsl : Char := Char.ofNat 92

/-- Whitespace characters matched by the JavaScript regex class for spaces and
removed by String.prototype.trim: tab, line feed, vertical tab, form feed,
carriage return, space, NBSP, ogham space, the u2000 to u200a range, line and
paragraph separators, narrow NBSP, medium mathematical space, ideographic
space, and the byte order mark. -/
def isJsSpace (c : Char) : Bool :=
  c == Char.ofNat 32 || c == Char.ofNat 9 || c == Char.ofNat 10 ||
  c == Char.ofNat 13 || c == Char.ofNat 11 || c == Char.ofNat 12 ||
  c == Char.ofNat 160 || c == Char.ofNat 5760 ||
  (decide (8192 ≤ c.toNat) && decide (c.toNat ≤ 8202)) ||
  c == Char.ofNat 8232 || c == Char.ofNat 8233 || c == Char.ofNat 8239 ||
  c == Char.ofNat 8287 || c == Char.ofNat 12288 || c == Char.ofNat 65279

/-- Longest whitespace prefix of a string: the JavaScript match of a regex
anchored at the start consisting of zero or more space-class characters,
as used at line 145 of the script to save the leading whitespace. -/
def leadWs (s : List Char) : List Char := s.takeWhile isJsSpace

/-- Longest whitespace suffix of a string: the JavaScript match of a regex of
zero or more space-class characters anchored at the end, line 146. -/
def trailWs (s : List Char) : List Char := (s.reverse.takeWhile isJsSpace).reverse

/-- JavaScript String.prototype.trim: remove the whitespace prefix and suffix. -/
def jsTrim (s : List Char) : List Char :=
  ((s.dropWhile isJsSpace).reverse.dropWhile isJsSpace).reverse

/-- JavaScript String.prototype.substring with its clamp-and-swap semantics:
both indices are clamped to the string length and swapped when the first
exceeds the second. -/
def jsSubstring (s : List Char) (a b : Nat) : List Char :=
  let a2 := min a s.length
  let b2 := min b s.length
  (s.drop (min a2 b2)).take (max a2 b2 - min a2 b2)

/-- Post-processing of a raw translator response, lines 104 to 108 and 140 to
143 of the script: trim the response, then strip one layer of wrapping double
quotes when the trimmed response starts and ends with a double quote. -/
def postProcess (raw : List Char) : List Char :=
  let t := jsTrim raw
  if t.head? = some dq ∧ t.getLast? = some dq then
    jsSubstring t 1 (t.length - 1)
  else t

/-- The translateSimpleText function of the script, lines 100 to 114: a
translator call abstracted as a function returning some response or none on
failure; on success the response is post-processed, on failure the original
untrimmed input text is returned. -/
def translateSimpleText (tr : List Char → Option (List Char))
    (text : List Char) : List Char :=
  match tr text with
  | some raw => postProcess raw
  | none => text

/-- Search for the earliest closing triple backtick marker: the lazy part of
the fenced alternative of the segmentation regex. Returns the content before
the closer and the remainder after it. -/
def findFenceClose : List Char → Option (List Char × List Char)
  | [] => none
  | c :: t =>
    if c = bq ∧ t.take 2 = [bq, bq] then some ([], t.drop 2)
    else (findFenceClose t).map (fun pr => (c :: pr.1, pr.2))

/-- The fenced-code alternative of the segmentation regex at the current
position: a triple backtick opener, lazily matched arbitrary content, and the
nearest triple backtick closer. Returns the matched text and the remainder. -/
def fencedMatch (s : List Char) : Option (List Char × List Char) :=
  if s.take 3 = [bq, bq, bq] then
    (findFenceClose (s.drop 3)).map
      (fun pr => ([bq, bq, bq] ++ pr.1 ++ [bq, bq, bq], pr.2))
  else none

/-- The inline-code alternative of the segmentation regex at the current
position: a backtick, one or more non-backtick characters, and a closing
backtick. Returns the matched text and the remainder. -/
def inlineMatch : List Char → Option (List Char × List Char)
  | [] => none
  | c :: t =>
    if c = bq then
      let run := t.takeWhile (fun x => decide (x ≠ bq))
      if run.isEmpty then none
      else
        match t.dropWhile (fun x => decide (x ≠ bq)) with
        | [] => none
        | _ :: rest2 => some ((bq :: run) ++ [bq], rest2)
    else none

/-- A match of the segmentation regex of line 124 anchored at the current
position, trying the fenced alternative first as the regex alternation does. -/
def matchAt (s : List Char) : Option (List Char × List Char) :=
  match fencedMatch s with
  | some pr => some pr
  | none => inlineMatch s

/-- Kind of a segment produced by the split: a code match or the prose text
between matches. -/
inductive SKind
  | code
  | prose
deriving DecidableEq

/-- Fuel-indexed scan of the body implementing String.prototype.split with the
capturing segmentation regex: at each position the regex is tried; a match
emits the pending prose segment and the code match, otherwise the scanner
advances one character. The accumulator holds the pending segment reversed.
Fuel at least one more than the length of the input always suffices. -/
def segAuxF : Nat → List Char → List Char → List (SKind × List Char)
  | 0, _, _ => []
  | fuel + 1, s, acc =>
    match matchAt s with
    | some pr => (SKind.prose, acc.reverse) :: (SKind.code, pr.1) :: segAuxF fuel pr.2 []
    | none =>
      match s with
      | [] => [(SKind.prose, acc.reverse)]
      | c :: t => segAuxF fuel t (c :: acc)

/-- The full tagged result of body.split(regex), separators included, before
the filter step. -/
def rawSegs (body : List Char) : List (SKind × List Char) :=
  segAuxF (body.length + 1) body []

/-- The tagged spans after the filter step of line 126 removes the empty
strings, mirroring filter(Boolean). -/
def spans (body : List Char) : List (SKind × List Char) :=
  (rawSegs body).filter (fun x => !x.2.isEmpty)

/-- The parts array of line 126 of the script: the span texts in order. -/
def parts (body : List Char) : List (List Char) :=
  (spans body).map Prod.snd

/-- Leftmost match of the segmentation regex anywhere in the string, returning
its start position and length: the search performed by a global regex test. -/
def findFirst : List Char → Option (Nat × Nat)
  | [] => (matchAt []).map (fun pr => (0, pr.1.length))
  | c :: t =>
    match matchAt (c :: t) with
    | some pr => some (0, pr.1.length)
    | none => (findFirst t).map (fun pr => (pr.1 + 1, pr.2))

/-- Check that the segmentation regex matches at no position of a string, by
trying every suffix: an executable certificate that a concrete body contains
no complete code match. -/
def noMatchList : List Char → Bool
  | [] => (matchAt []).isNone
  | c :: t => (matchAt (c :: t)).isNone && noMatchList t

/-- State threaded through the loop of translateBody: the lastIndex of the
global regex object, the fragments sent to the translator so far, and the
translatedParts array. -/
structure TBState where
  li : Nat
  calls : List (List Char)
  outs : List (List Char)
deriving DecidableEq

/-- One iteration of the loop of translateBody, lines 130 to 157. The global
regex test searches the part from the current lastIndex: on a hit the part is
pushed verbatim and lastIndex advances to the end of the hit; on a miss
lastIndex resets to zero and the part is translated when its trimmed text is
nonempty, reattaching the original leading and trailing whitespace on success
and pushing the original part on failure; a whitespace-only part is pushed
unchanged. -/
def processPart (tr : List Char → Option (List Char))
    (st : TBState) (part : List Char) : TBState :=
  match findFirst (part.drop st.li) with
  | some pr =>
    { li := st.li + pr.1 + pr.2, calls := st.calls, outs := st.outs ++ [part] }
  | none =>
    if jsTrim part ≠ [] then
      match tr part with
      | some raw =>
        { li := 0, calls := st.calls ++ [part],
          outs := st.outs ++ [leadWs part ++ postProcess raw ++ trailWs part] }
      | none =>
        { li := 0, calls := st.calls ++ [part], outs := st.outs ++ [part] }
    else
      { li := 0, calls := st.calls, outs := st.outs ++ [part] }

/-- The loop of translateBody run over all parts of a body. -/
def runBody (tr : List Char → Option (List Char)) (body : List Char) : TBState :=
  (parts body).foldl (processPart tr) ⟨0, [], []⟩

/-- The translateBody function of the script, lines 122 to 161: split the body,
process every part, and join the translated parts with no separator. -/
def translateBody (tr : List Char → Option (List Char)) (body : List Char) :
    List Char :=
  (runBody tr body).outs.flatten

/-- The fragments that translateBody sends to the translator, in call order. -/
def translateBodyCalls (tr : List Char → Option (List Char))
    (body : List Char) : List (List Char) :=
  (runBody tr body).calls

/-- The replace call of lines 216 and 232: every double quote in a title is
replaced by a backslash followed by a double quote. -/
def escQuotes (t : List Char) : List Char :=
  t.flatMap (fun c => if c = dq then [bsl, dq] else [c])

/-- The quoted title value as embedded in the front matter: an opening double
quote, the escaped title, and a closing double quote. -/
def titleFieldOf (t : List Char) : List Char :=
  dq :: escQuotes t ++ [dq]

/-- The bracketed tag list of the front matter: each tag wrapped in double
quotes, joined by comma and space. Tags are not escaped by the script. -/
def tagsField (tags : List (List Char)) : List Char :=
  List.intercalate (", ".data) (tags.map (fun t => dq :: t ++ [dq]))

/-- A front matter block as built by main at lines 215 to 219 and 231 to 235. -/
def frontMatter (title date : List Char) (tags : List (List Char)) : List Char :=
  "---\ntitle: ".data ++ titleFieldOf title ++ "\ndate: ".data ++ date ++
  "\ntags: [".data ++ tagsField tags ++ "]\n---".data

/-- A source record as consumed by main: identifier, title, slug, publish
date, and tag list, extracted from the page properties. -/
structure Page where
  id : Nat
  title : List Char
  slug : List Char
  date : List Char
  tags : List (List Char)

/-- The Korean artifact content: front matter, a blank line, and the body. -/
def koContentOf (page : Page) (body : List Char) : List Char :=
  frontMatter page.title page.date page.tags ++ "\n\n".data ++ body

/-- The byte order mark stripped from the start of the Japanese artifact. -/
def stripBom (s : List Char) : List Char :=
  match s with
  | c :: t => if c = Char.ofNat 65279 then t else c :: t
  | [] => []

/-- The Japanese artifact content: front matter with the translated title, a
blank line, the translated body, and the BOM strip of lines 239 to 241. -/
def jaContentOf (page : Page) (titleJa jaBody : List Char) : List Char :=
  stripBom (frontMatter titleJa page.date page.tags ++ "\n\n".data ++ jaBody)

/-- The external effects of one run of main, each keyed by the page
identifier: markdown conversion (which can throw), the two file writes (which
can throw), the status update call (which can fail), and the translator. -/
structure Env where
  convert : Nat → Except Unit (List Char)
  writeKo : Nat → Except Unit Unit
  writeJa : Nat → Except Unit Unit
  update : Nat → Except Unit Unit
  tr : List Char → Option (List Char)

/-- Observable per-document actions of main, in order of occurrence. -/
inductive Ev
  | skipped (id : Nat)
  | failed (id : Nat)
  | wroteKo (id : Nat) (content : List Char)
  | wroteJa (id : Nat) (content : List Char)
  | statusUpdated (id : Nat)
deriving DecidableEq

/-- Whether an effect call succeeded. -/
def exceptOk (e : Except Unit Unit) : Bool :=
  match e with
  | Except.ok _ => true
  | Except.error _ => false

/-- The per-document body of the loop of main, lines 196 to 257: skip a page
without title or slug; otherwise convert, trim, write the Korean artifact,
translate the title and the body, write the Japanese artifact, and update the
status, where any throwing step lands in the single catch of the document and
later steps do not run. -/
def processPage (env : Env) (page : Page) : List Ev :=
  if page.title.isEmpty || page.slug.isEmpty then [Ev.skipped page.id]
  else
    match env.convert page.id with
    | Except.error _ => [Ev.failed page.id]
    | Except.ok raw =>
      let koBody := jsTrim raw
      let koC := koContentOf page koBody
      match env.writeKo page.id with
      | Except.error _ => [Ev.failed page.id]
      | Except.ok _ =>
        let titleJa := translateSimpleText env.tr page.title
        let jaBody := translateBody env.tr koBody
        let jaC := jaContentOf page titleJa jaBody
        match env.writeJa page.id with
        | Except.error _ => [Ev.wroteKo page.id koC, Ev.failed page.id]
        | Except.ok _ =>
          match env.update page.id with
          | Except.error _ =>
            [Ev.wroteKo page.id koC, Ev.wroteJa page.id jaC, Ev.failed page.id]
          | Except.ok _ =>
            [Ev.wroteKo page.id koC, Ev.wroteJa page.id jaC,
             Ev.statusUpdated page.id]

/-- The getPagesToPublish function, lines 166 to 182: the fetch outcome covers
both a thrown error and a non-success status; in either failure case the
function catches, logs, and returns an empty list. -/
def getPagesToPublish (fetch : Except Unit (List Page)) : List Page :=
  match fetch with
  | Except.ok l => l
  | Except.error _ => []

/-- The main function, lines 185 to 258: fetch the ready pages and process
each page in order; an empty list means an early normal return, which yields
the same empty trace. -/
def mainRun (env : Env) (fetch : Except Unit (List Page)) : List Ev :=
  ((getPagesToPublish fetch).map (processPage env)).flatten

/-- Scanner for the tail of a double-quoted field: consume characters until an
unescaped double quote, treating a backslash as escaping the next character;
returns the remainder after the closing quote, or none when the field never
closes. -/
def scanQuoted : List Char → Option (List Char)
  | [] => none
  | c :: t =>
    if c = dq then some t
    else if c = bsl then
      match t with
      | [] => none
      | _ :: t2 => scanQuoted t2
    else scanQuoted t

/-- A rendered quoted field is well formed when it opens with a double quote
and the scan closes exactly at its final character. -/
def wellFormedQuoted (s : List Char) : Bool :=
  match s with
  | [] => false
  | c :: t => decide (c = dq ∧ scanQuoted t = some [])

/-- A concrete all-success environment with a failing translator, used to
instantiate the status-gating theorem. -/
def env0 : Env where
  convert := fun _ => Except.ok "hello".data
  writeKo := fun _ => Except.ok ()
  writeJa := fun _ => Except.ok ()
  update := fun _ => Except.ok ()
  tr := fun _ => none

/-- A concrete page with nonempty title and slug, used to instantiate the
status-gating theorem. -/
def page0 : Page where
  id := 0
  title := "t".data
  slug := "s".data
  date := "2024-01-01".data
  tags := []

/-- The first element left by dropWhile falsifies the predicate. -/
theorem dropWhile_cons_head (p : Char → Bool) :
    ∀ (l : List Char) (d : Char) (r : List Char),
      l.dropWhile p = d :: r → p d = false := by
  intro l
  induction l with
  | nil => intro d r h; exact List.noConfusion h
  | cons c t ih =>
    intro d r h
    rw [List.dropWhile_cons] at h
    by_cases hc : p c = true
    · rw [if_pos hc] at h; exact ih d r h
    · rw [if_neg hc] at h
      obtain ⟨rfl, _⟩ := List.cons.inj h
      exact Bool.eq_false_iff.mpr hc

/-- A successful fence-close search splits its input as content, closer, and
remainder. -/
theorem findFenceClose_append :
    ∀ (s con rest : List Char), findFenceClose s = some (con, rest) →
      con ++ [bq, bq, bq] ++ rest = s := by
  intro s
  induction s with
  | nil => intro con rest h; exact Option.noConfusion h
  | cons c t ih =>
    intro con rest h
    rw [findFenceClose] at h
    split at h
    · rename_i hcond
      obtain ⟨hc, htake⟩ := hcond
      obtain ⟨hcon, hrest⟩ := Prod.mk.injEq .. ▸ Option.some.inj h
      subst hcon hrest hc
      have := List.take_append_drop 2 t
      rw [htake] at this
      simpa using this
    · rcases hfc : findFenceClose t with _ | pr
      · rw [hfc] at h; simp at h
      · rw [hfc] at h
        simp at h
        obtain ⟨hcon, hrest⟩ := h
        subst hcon hrest
        have := ih pr.1 pr.2 hfc
        simpa using congrArg (c :: ·) this

/-- A successful fenced match splits its input as match and remainder, and the
match is nonempty. -/
theorem fencedMatch_append (s m r : List Char) (h : fencedMatch s = some (m, r)) :
    m ++ r = s ∧ m ≠ [] := by
  rw [fencedMatch] at h
  split at h
  · rename_i htake
    rcases hfc : findFenceClose (s.drop 3) with _ | pr
    · rw [hfc] at h; simp at h
    · rw [hfc] at h
      simp at h
      obtain ⟨hm, hr⟩ := h
      subst hm hr
      have hsplit := findFenceClose_append (s.drop 3) pr.1 pr.2 hfc
      constructor
      · have := List.take_append_drop 3 s
        rw [htake] at this
        calc ([bq, bq, bq] ++ pr.1 ++ [bq, bq, bq]) ++ pr.2
            = [bq, bq, bq] ++ (pr.1 ++ [bq, bq, bq] ++ pr.2) := by simp
          _ = [bq, bq, bq] ++ s.drop 3 := by rw [hsplit]
          _ = s := this
      · simp
  · simp at h

/-- A successful inline match splits its input as match and remainder, and the
match is nonempty. -/
theorem inlineMatch_append (s m r : List Char) (h : inlineMatch s = some (m, r)) :
    m ++ r = s ∧ m ≠ [] := by
  match s with
  | [] => simp [inlineMatch] at h
  | c :: t =>
    rw [inlineMatch] at h
    split at h
    · rename_i hc
      simp only at h
      split at h
      · simp at h
      · rename_i hrun
        split at h
        · simp at h
        · rename_i d rest2 hdrop
          obtain ⟨hm, hr⟩ := Prod.mk.injEq .. ▸ Option.some.inj h
          subst hm hr
          have hd : (fun x => decide (x ≠ bq)) d = false :=
            dropWhile_cons_head _ t d rest2 hdrop
          have hdbq : d = bq := by simpa using hd
          subst hdbq hc
          have ht := List.takeWhile_append_dropWhile
            (p := fun x => decide (x ≠ bq)) (l := t)
          rw [hdrop] at ht
          constructor
          · calc ((bq :: t.takeWhile (fun x => decide (x ≠ bq))) ++ [bq]) ++ rest2
                = bq :: (t.takeWhile (fun x => decide (x ≠ bq)) ++ (bq :: rest2)) := by
                  simp
              _ = bq :: t := by rw [ht]
          · simp
    · simp at h

/-- A successful regex match at a position splits its input as match and
remainder, and the match is nonempty. -/
theorem matchAt_append (s m r : List Char) (h : matchAt s = some (m, r)) :
    m ++ r = s ∧ m ≠ [] := by
  rw [matchAt] at h
  rcases hf : fencedMatch s with _ | pr
  · rw [hf] at h
    exact inlineMatch_append s m r h
  · rw [hf] at h
    obtain ⟨hm, hr⟩ := Prod.mk.injEq .. ▸ Option.some.inj h
    subst hm hr
    exact fencedMatch_append s pr.1 pr.2 hf

/-- The remainder after a successful regex match is strictly shorter than the
input. -/
theorem matchAt_rest_lt (s m r : List Char) (h : matchAt s = some (m, r)) :
    r.length < s.length := by
  obtain ⟨happ, hne⟩ := matchAt_append s m r h
  have : m.length + r.length = s.length := by
    rw [← happ]; simp
  have hm : 0 < m.length := List.length_pos.mpr hne
  omega

/-- Unfolding equation of the fuel-indexed scanner at positive fuel. -/
theorem segAuxF_succ (n : Nat) (s acc : List Char) :
    segAuxF (n + 1) s acc =
      match matchAt s with
      | some pr =>
        (SKind.prose, acc.reverse) :: (SKind.code, pr.1) :: segAuxF n pr.2 []
      | none =>
        match s with
        | [] => [(SKind.prose, acc.reverse)]
        | c :: t => segAuxF n t (c :: acc) := rfl

/-- Concatenating the texts of the raw split output reproduces the scanned
remainder appended to the pending segment, for sufficient fuel. -/
theorem segAuxF_flatten :
    ∀ (fuel : Nat) (s acc : List Char), s.length < fuel →
      ((segAuxF fuel s acc).map Prod.snd).flatten = acc.reverse ++ s := by
  intro fuel
  induction fuel with
  | zero => intro s acc h; exact absurd h (Nat.not_lt_zero _)
  | succ n ih =>
    intro s acc h
    rw [segAuxF_succ]
    rcases hm : matchAt s with _ | pr
    · simp only [hm]
      match s with
      | [] => simp
      | c :: t =>
        simp only
        have ht : t.length < n := by
          simp only [List.length_cons] at h; omega
        rw [ih t (c :: acc) ht]
        simp
    · simp only [hm, List.map_cons, List.flatten_cons]
      obtain ⟨happ, _⟩ := matchAt_append s pr.1 pr.2 hm
      have hlt : pr.2.length < n := by
        have := matchAt_rest_lt s pr.1 pr.2 hm
        omega
      rw [ih pr.2 [] hlt]
      simp only [List.reverse_nil, List.nil_append]
      rw [happ]

/-- Dropping the empty texts does not change the concatenation of the texts. -/
theorem flatten_filter_nonempty (l : List (SKind × List Char)) :
    (((l.filter (fun x => !x.2.isEmpty)).map Prod.snd)).flatten =
      ((l.map Prod.snd)).flatten := by
  induction l with
  | nil => rfl
  | cons x t ih =>
    by_cases hx : x.2.isEmpty
    · have hnil : x.2 = [] := List.isEmpty_iff.mp hx
      simp [List.filter_cons, hx, hnil, ih]
    · simp [List.filter_cons, hx, ih]

/-- Concatenating the parts of the split reproduces the body exactly. -/
theorem parts_flatten (body : List Char) : (parts body).flatten = body := by
  have h1 := segAuxF_flatten (body.length + 1) body [] (Nat.lt_succ_self _)
  simp only [List.reverse_nil, List.nil_append] at h1
  calc (parts body).flatten
      = ((rawSegs body).map Prod.snd).flatten := by
        rw [parts, spans, flatten_filter_nonempty]
    _ = body := h1

/-- With a translator that always fails, each loop iteration of translateBody
pushes the part unchanged. -/
theorem processPart_fail_outs (st : TBState) (p : List Char) :
    (processPart (fun _ => none) st p).outs = st.outs ++ [p] := by
  simp only [processPart]
  rcases hf : findFirst (p.drop st.li) with _ | pr
  · simp only
    split <;> rfl
  · rfl

/-- With a translator that always fails, the loop of translateBody appends
every part unchanged to the output. -/
theorem foldl_fail_outs :
    ∀ (ps : List (List Char)) (st : TBState),
      (ps.foldl (processPart (fun _ => none)) st).outs = st.outs ++ ps := by
  intro ps
  induction ps with
  | nil => intro st; simp
  | cons p t ih =>
    intro st
    rw [List.foldl_cons, ih, processPart_fail_outs]
    simp

/-- Claim C1: for every document body, concatenating in original order the
parts that the segmenter produces from the body reproduces the input body
exactly, character for character. -/
theorem c1_segment_roundtrip (body : List Char) : (parts body).flatten = body :=
  parts_flatten body

/-- Claim C3: with a translator that always fails, translateBody returns the
body unchanged and translateSimpleText returns the title unchanged, because
the catch of each fragment or title returns the original untrimmed input. -/
theorem c3_degradation_on_failure (body title : List Char) :
    translateBody (fun _ => none) body = body ∧
    translateSimpleText (fun _ => none) title = title := by
  constructor
  · rw [translateBody, runBody, foldl_fail_outs]
    simpa using parts_flatten body
  · rfl

/-- Claim C2 evaluated at a failing input: in a body of two adjacent inline
code spans, the split classifies both parts as code matches, yet the loop of
translateBody sends the second code span to the translator and replaces it in
the output, because the global-flag regex test keeps its lastIndex across
iterations and therefore misses the match in the second part. -/
theorem c2_code_sent_to_translator :
    spans "`a``b`".data = [(SKind.code, "`a`".data), (SKind.code, "`b`".data)] ∧
    translateBodyCalls (fun _ => some ['T']) "`a``b`".data = ["`b`".data] ∧
    translateBody (fun _ => some ['T']) "`a``b`".data = "`a`T".data := by
  refine ⟨by decide, by decide, by decide⟩

/-- Claim C7 evaluated at a failing input: the whitespace-only prose part is
never sent to the translator and appears unchanged in the output, but the
number of translation calls is one while the number of non-blank prose parts
is zero, because the stateful regex test misclassifies the second adjacent
code span as prose. -/
theorem c7_blank_skip_call_count :
    spans " `x``y`".data =
      [(SKind.prose, " ".data), (SKind.code, "`x`".data),
       (SKind.code, "`y`".data)] ∧
    (spans " `x``y`".data).countP
        (fun x => decide (x.1 = SKind.prose ∧ jsTrim x.2 ≠ [])) = 0 ∧
    translateBodyCalls (fun _ => some ['T']) " `x``y`".data = ["`y`".data] ∧
    translateBody (fun _ => some ['T']) " `x``y`".data = " `x`T".data := by
  refine ⟨by decide, by decide, by decide, by decide⟩

/-- Claim C4 refuted at a concrete input: a body that is an unterminated fence
is segmented as a single prose span, not as a code span, and its whole text is
sent to the translator. -/
theorem c4_unterminated_fence_counterexample :
    spans "```abc".data = [(SKind.prose, "```abc".data)] ∧
    translateBodyCalls (fun _ => none) "```abc".data = ["```abc".data] := by
  refine ⟨by decide, by decide⟩

/-- Stripping the quote layer via the JavaScript substring call agrees with
dropping the first character and taking all but the final character, for a
string of length at least two. -/
theorem jsSubstring_strip (t : List Char) (h : 2 ≤ t.length) :
    jsSubstring t 1 (t.length - 1) = (t.drop 1).take (t.length - 2) := by
  simp only [jsSubstring]
  have e1 : min 1 t.length = 1 := by omega
  have e2 : min (t.length - 1) t.length = t.length - 1 := by omega
  rw [e1, e2]
  have e3 : min 1 (t.length - 1) = 1 := by omega
  have e4 : max 1 (t.length - 1) = t.length - 1 := by omega
  rw [e3, e4]
  congr 1

/-- The JavaScript substring call of the stripping branch is the identity on a
string of length one, because substring swaps its clamped arguments. -/
theorem jsSubstring_len_one (t : List Char) (h : t.length = 1) :
    jsSubstring t 1 (t.length - 1) = t := by
  simp only [jsSubstring, h]
  norm_num
  exact h.le

/-- Claim C5: the post-processing strips exactly one layer of wrapping double
quotes if and only if the trimmed response starts and ends with a double quote
and has length at least two; otherwise the trimmed response is returned
untouched. -/
theorem c5_quote_stripping (raw : List Char) :
    ((jsTrim raw).head? = some dq ∧ (jsTrim raw).getLast? = some dq ∧
        2 ≤ (jsTrim raw).length →
      postProcess raw =
        ((jsTrim raw).drop 1).take ((jsTrim raw).length - 2)) ∧
    (¬((jsTrim raw).head? = some dq ∧ (jsTrim raw).getLast? = some dq ∧
        2 ≤ (jsTrim raw).length) →
      postProcess raw = jsTrim raw) := by
  simp only [postProcess]
  constructor
  · rintro ⟨h1, h2, h3⟩
    rw [if_pos ⟨h1, h2⟩]
    exact jsSubstring_strip (jsTrim raw) h3
  · intro hneg
    by_cases hcond : (jsTrim raw).head? = some dq ∧ (jsTrim raw).getLast? = some dq
    · rw [if_pos hcond]
      have hne : jsTrim raw ≠ [] := by
        intro hnil
        rw [hnil] at hcond
        simp at hcond
      have hlen1 : (jsTrim raw).length = 1 := by
        have hpos : 0 < (jsTrim raw).length := List.length_pos.mpr hne
        have hnot2 : ¬ 2 ≤ (jsTrim raw).length :=
          fun hh => hneg ⟨hcond.1, hcond.2, hh⟩
        omega
      exact jsSubstring_len_one (jsTrim raw) hlen1
    · rw [if_neg hcond]

/-- Witness for the quote-stripping theorem at a concrete quoted response. -/
theorem c5_quote_stripping_witness : postProcess " \"ab\" ".data = "ab".data :=
  ((c5_quote_stripping " \"ab\" ".data).1 (by decide)).trans (by decide)

/-- Claim C8: when the loop classifies a part as prose, its trimmed text is
nonempty, and the translation call succeeds, the emitted output for that part
is the original leading whitespace, the post-processed response, and the
original trailing whitespace. -/
theorem c8_whitespace_reattachment (tr : List Char → Option (List Char))
    (st : TBState) (part raw : List Char)
    (h1 : findFirst (part.drop st.li) = none)
    (h2 : jsTrim part ≠ [])
    (h3 : tr part = some raw) :
    (processPart tr st part).outs =
      st.outs ++ [leadWs part ++ postProcess raw ++ trailWs part] := by
  simp [processPart, h1, h2, h3]

/-- Witness for the whitespace reattachment theorem at a concrete part. -/
theorem c8_whitespace_reattachment_witness :
    (processPart (fun _ => some "X".data) ⟨0, [], []⟩ " hi ".data).outs =
      [" X ".data] :=
  (c8_whitespace_reattachment (fun _ => some "X".data) ⟨0, [], []⟩ " hi ".data
    "X".data (by decide) (by decide) rfl).trans (by decide)

/-- Claim C6: if the status of a document was updated, then both the Korean
and the Japanese writes succeeded, and the status update is the last action
in the trace of that document. -/
theorem c6_status_update_gating (env : Env) (page : Page)
    (hmem : Ev.statusUpdated page.id ∈ processPage env page) :
    exceptOk (env.writeKo page.id) = true ∧
    exceptOk (env.writeJa page.id) = true ∧
    (processPage env page).getLast? = some (Ev.statusUpdated page.id) := by
  by_cases hskip : (page.title.isEmpty || page.slug.isEmpty) = true
  · simp [processPage, hskip] at hmem
  · rcases hconv : env.convert page.id with e | raw
    · simp [processPage, hskip, hconv] at hmem
    · rcases hko : env.writeKo page.id with e | u
      · simp [processPage, hskip, hconv, hko] at hmem
      · rcases hja : env.writeJa page.id with e | u2
        · simp [processPage, hskip, hconv, hko, hja] at hmem
        · rcases hup : env.update page.id with e | u3
          · simp [processPage, hskip, hconv, hko, hja, hup] at hmem
          · refine ⟨by simp [exceptOk, hko], by simp [exceptOk, hja], ?_⟩
            simp [processPage, hskip, hconv, hko, hja, hup]

/-- Witness for the status gating theorem at a concrete successful run. -/
theorem c6_status_update_gating_witness :
    exceptOk (env0.writeKo page0.id) = true ∧
    exceptOk (env0.writeJa page0.id) = true ∧
    (processPage env0 page0).getLast? = some (Ev.statusUpdated page0.id) :=
  c6_status_update_gating env0 page0 (by decide)

/-- Claim C9 refuted at a concrete input: a failed fetch is caught inside
getPagesToPublish, which returns an empty list; the run processes zero
documents and its outcome is identical to a successful fetch that returned no
ready documents, so the exit state does not reflect whether the fetch
succeeded. -/
theorem c9_fetch_failure_counterexample :
    getPagesToPublish (Except.error ()) = [] ∧
    mainRun env0 (Except.error ()) = [] ∧
    mainRun env0 (Except.error ()) = mainRun env0 (Except.ok []) := by
  refine ⟨rfl, rfl, rfl⟩

/-- Claim C9 (amended): for every environment, a failed or non-success fetch
is caught and yields an empty page list; the run then processes zero documents
and terminates normally, with a trace equal to that of a successful fetch
returning no documents. -/
theorem c9_fetch_failure_amended (env : Env) :
    getPagesToPublish (Except.error ()) = [] ∧
    mainRun env (Except.error ()) = [] ∧
    mainRun env (Except.error ()) = mainRun env (Except.ok []) :=
  ⟨rfl, rfl, rfl⟩

/-- Claim C10 refuted at a concrete input: the quote-only escaping leaves a
lone backslash in a title unchanged, and the resulting quoted title field is
malformed because the backslash escapes the closing quote. -/
theorem c10_title_escaping_counterexample :
    escQuotes [bsl] = [bsl] ∧
    wellFormedQuoted (titleFieldOf [bsl]) = false := by
  refine ⟨by decide, by decide⟩

/-- Unfolding equation of the quoted-field scanner on a nonempty tail. -/
theorem scanQuoted_cons (c : Char) (t : List Char) :
    scanQuoted (c :: t) =
      if c = dq then some t
      else if c = bsl then
        match t with
        | [] => none
        | _ :: t2 => scanQuoted t2
      else scanQuoted t := by
  rw [scanQuoted.eq_def]

/-- Scanning a tail that begins with an unescaped double quote closes there. -/
theorem scanQuoted_cons_dq (t : List Char) : scanQuoted (dq :: t) = some t := by
  rw [scanQuoted_cons, if_pos rfl]

/-- A backslash at the head of the tail escapes the following character. -/
theorem scanQuoted_cons_bsl (d : Char) (t : List Char) :
    scanQuoted (bsl :: d :: t) = scanQuoted t := by
  rw [scanQuoted_cons, if_neg (by decide : ¬ bsl = dq), if_pos rfl]

/-- Any other character at the head of the tail is consumed without effect. -/
theorem scanQuoted_cons_other (c : Char) (t : List Char)
    (h1 : c ≠ dq) (h2 : c ≠ bsl) : scanQuoted (c :: t) = scanQuoted t := by
  rw [scanQuoted_cons, if_neg h1, if_neg h2]

/-- Scanning the escaped rendering of a backslash-free title closes exactly at
the final added quote. -/
theorem scanQuoted_esc :
    ∀ (t : List Char), (∀ c ∈ t, c ≠ bsl) →
      scanQuoted (escQuotes t ++ [dq]) = some [] := by
  intro t
  induction t with
  | nil => intro _; decide
  | cons c t ih =>
    intro hforall
    have hc : c ≠ bsl := hforall c (by simp)
    have ht : ∀ x ∈ t, x ≠ bsl := fun x hx => hforall x (by simp [hx])
    by_cases hdq : c = dq
    · subst hdq
      have hsh : escQuotes (dq :: t) ++ [dq] =
          bsl :: (dq :: (escQuotes t ++ [dq])) := by
        simp [escQuotes]
      rw [hsh, scanQuoted_cons_bsl]
      exact ih ht
    · have hsh : escQuotes (c :: t) ++ [dq] = c :: (escQuotes t ++ [dq]) := by
        simp [escQuotes, hdq]
      rw [hsh, scanQuoted_cons_other c _ hdq hc]
      exact ih ht

/-- Claim C10 (amended): both titles have every double quote replaced by a
backslash-escaped quote before embedding, and the resulting quoted title field
is well formed for every title that contains no backslash. -/
theorem c10_title_escaping_amended (t : List Char) (h : ∀ c ∈ t, c ≠ bsl) :
    wellFormedQuoted (titleFieldOf t) = true := by
  have hs := scanQuoted_esc t h
  simp [wellFormedQuoted, titleFieldOf, hs]

/-- Witness for the amended title escaping theorem at a concrete title
containing a double quote and no backslash. -/
theorem c10_title_escaping_amended_witness :
    wellFormedQuoted (titleFieldOf "a\"b".data) = true :=
  c10_title_escaping_amended "a\"b".data (by decide)

/-- The regex has no match in the empty string. -/
theorem matchAt_nil : matchAt [] = none := by decide

/-- A true noMatchList certificate means the regex matches at no position. -/
theorem noMatchList_sound :
    ∀ (s : List Char), noMatchList s = true →
      ∀ k, matchAt (s.drop k) = none := by
  intro s
  induction s with
  | nil =>
    intro _ k
    rw [List.drop_nil]
    exact matchAt_nil
  | cons c t ih =>
    intro h k
    rw [noMatchList, Bool.and_eq_true] at h
    match k with
    | 0 => simpa using Option.isNone_iff_eq_none.mp h.1
    | j + 1 =>
      rw [List.drop_succ_cons]
      exact ih h.2 j

/-- The regex has no match anchored at a non-backtick character. -/
theorem matchAt_cons_ne (c : Char) (t : List Char) (h : c ≠ bq) :
    matchAt (c :: t) = none := by
  have hf : fencedMatch (c :: t) = none := by
    rw [fencedMatch, if_neg]
    intro hh
    rw [List.take_succ_cons] at hh
    exact h (List.cons.inj hh).1
  have hi : inlineMatch (c :: t) = none := by
    rw [inlineMatch, if_neg h]
  simp [matchAt, hf, hi]

/-- A backtick-free string contains no fence closer. -/
theorem findFenceClose_bqfree :
    ∀ (s : List Char), (∀ x ∈ s, x ≠ bq) → findFenceClose s = none := by
  intro s
  induction s with
  | nil => intro _; rfl
  | cons c t ih =>
    intro h
    rw [findFenceClose, if_neg, ih (fun x hx => h x (by simp [hx]))]
    · rfl
    · intro hh
      exact h c (by simp) hh.1

/-- The regex has no match anchored at the opener of an unterminated fence
followed by backtick-free text. -/
theorem matchAt_fence3 (c : List Char) (hc : ∀ x ∈ c, x ≠ bq) :
    matchAt (bq :: bq :: bq :: c) = none := by
  have hf : fencedMatch (bq :: bq :: bq :: c) = none := by
    rw [fencedMatch, if_pos (by simp)]
    have hd : (bq :: bq :: bq :: c).drop 3 = c := by simp
    rw [hd, findFenceClose_bqfree c hc]
    rfl
  have hi : inlineMatch (bq :: bq :: bq :: c) = none := by
    rw [inlineMatch, if_pos rfl]
    simp [List.takeWhile_cons]
  simp [matchAt, hf, hi]

/-- The regex has no match anchored at the second backtick of an unterminated
fence followed by backtick-free text. -/
theorem matchAt_fence2 (c : List Char) (hc : ∀ x ∈ c, x ≠ bq) :
    matchAt (bq :: bq :: c) = none := by
  have hf : fencedMatch (bq :: bq :: c) = none := by
    rw [fencedMatch, if_neg]
    intro hh
    simp only [List.take_succ_cons] at hh
    match c, hh with
    | d :: t, hh2 =>
      have := (List.cons.inj (List.cons.inj hh2).2).2
      rw [List.take_succ_cons] at this
      exact hc d (by simp) (List.cons.inj this).1
  have hi : inlineMatch (bq :: bq :: c) = none := by
    rw [inlineMatch, if_pos rfl]
    simp [List.takeWhile_cons]
  simp [matchAt, hf, hi]

/-- The regex has no match anchored at the third backtick of an unterminated
fence followed by backtick-free text. -/
theorem matchAt_fence1 (c : List Char) (hc : ∀ x ∈ c, x ≠ bq) :
    matchAt (bq :: c) = none := by
  have hf : fencedMatch (bq :: c) = none := by
    rw [fencedMatch, if_neg]
    intro hh
    simp only [List.take_succ_cons] at hh
    match c, hh with
    | d :: t, hh2 =>
      exact hc d (by simp) (List.cons.inj (List.cons.inj hh2).2).1
  have hi : inlineMatch (bq :: c) = none := by
    have htw : c.takeWhile (fun x => decide (x ≠ bq)) = c :=
      List.takeWhile_eq_self_iff.mpr (fun x hx => by simpa using hc x hx)
    have hdw : c.dropWhile (fun x => decide (x ≠ bq)) = [] :=
      List.dropWhile_eq_nil_iff.mpr (fun x hx => by simpa using hc x hx)
    rw [inlineMatch, if_pos rfl]
    simp only [htw, hdw]
    match c with
    | [] => rfl
    | d :: t => simp
  simp [matchAt, hf, hi]

/-- The regex has no match anywhere in a backtick-free string. -/
theorem bqfree_noMatch :
    ∀ (s : List Char), (∀ x ∈ s, x ≠ bq) → ∀ k, matchAt (s.drop k) = none := by
  intro s
  induction s with
  | nil => intro _ k; rw [List.drop_nil]; exact matchAt_nil
  | cons c t ih =>
    intro h k
    match k with
    | 0 => exact matchAt_cons_ne c t (h c (by simp))
    | j + 1 =>
      rw [List.drop_succ_cons]
      exact ih (fun x hx => h x (by simp [hx])) j

/-- The regex has no match anywhere in a body made of backtick-free text, an
unterminated fence opener, and backtick-free text to the end of the document. -/
theorem unterminated_noMatch :
    ∀ (p c : List Char), (∀ x ∈ p, x ≠ bq) → (∀ x ∈ c, x ≠ bq) →
      ∀ k, matchAt ((p ++ [bq, bq, bq] ++ c).drop k) = none := by
  intro p
  induction p with
  | nil =>
    intro c _ hc k
    match k with
    | 0 => simpa using matchAt_fence3 c hc
    | 1 => simpa using matchAt_fence2 c hc
    | 2 => simpa using matchAt_fence1 c hc
    | j + 3 =>
      have hd : (([] : List Char) ++ [bq, bq, bq] ++ c).drop (j + 3) = c.drop j := by
        simp [List.drop_succ_cons]
      rw [hd]
      exact bqfree_noMatch c hc j
  | cons x p2 ih =>
    intro c hp hc k
    have hx : x ≠ bq := hp x (by simp)
    have hp2 : ∀ y ∈ p2, y ≠ bq := fun y hy => hp y (by simp [hy])
    match k with
    | 0 =>
      have hsh : ((x :: p2) ++ [bq, bq, bq] ++ c) =
          x :: (p2 ++ [bq, bq, bq] ++ c) := by simp
      rw [List.drop_zero, hsh]
      exact matchAt_cons_ne x _ hx
    | j + 1 =>
      have hsh : ((x :: p2) ++ [bq, bq, bq] ++ c).drop (j + 1) =
          (p2 ++ [bq, bq, bq] ++ c).drop j := by
        simp [List.drop_succ_cons]
      rw [hsh]
      exact ih c hp2 hc j

/-- A match-free scan emits the whole input as a single prose segment. -/
theorem segAuxF_noMatch :
    ∀ (fuel : Nat) (s acc : List Char), s.length < fuel →
      (∀ k, matchAt (s.drop k) = none) →
      segAuxF fuel s acc = [(SKind.prose, acc.reverse ++ s)] := by
  intro fuel
  induction fuel with
  | zero => intro s acc h; exact absurd h (Nat.not_lt_zero _)
  | succ n ih =>
    intro s acc h hnm
    have h0 : matchAt s = none := by simpa using hnm 0
    rw [segAuxF_succ]
    rcases hm : matchAt s with _ | pr
    · simp only [hm]
      match s, h, hnm with
      | [], _, _ => simp
      | c :: t, h2, hnm2 =>
        simp only
        have ht : t.length < n := by
          simp only [List.length_cons] at h2; omega
        have hnmt : ∀ k, matchAt (t.drop k) = none := fun k => by
          simpa [List.drop_succ_cons] using hnm2 (k + 1)
        rw [ih t (c :: acc) ht hnmt]
        simp
    · rw [hm] at h0; exact absurd h0 (by simp)

/-- A nonempty match-free body is segmented as a single prose span. -/
theorem spans_noMatch (body : List Char) (hne : body ≠ [])
    (hnm : ∀ k, matchAt (body.drop k) = none) :
    spans body = [(SKind.prose, body)] := by
  rw [spans, rawSegs,
    segAuxF_noMatch (body.length + 1) body [] (Nat.lt_succ_self _) hnm]
  simp [List.filter_cons, hne]

/-- The global regex search finds nothing in a string whose every suffix is
match free. -/
theorem findFirst_cons (c : Char) (t : List Char) :
    findFirst (c :: t) =
      match matchAt (c :: t) with
      | some pr => some (0, pr.1.length)
      | none => (findFirst t).map (fun pr => (pr.1 + 1, pr.2)) := by
  rw [findFirst.eq_def]

/-- The global regex search returns none on a match-free string. -/
theorem findFirst_none :
    ∀ (s : List Char), (∀ k, matchAt (s.drop k) = none) → findFirst s = none := by
  intro s
  induction s with
  | nil => intro _; decide
  | cons c t ih =>
    intro hnm
    have h0 : matchAt (c :: t) = none := by simpa using hnm 0
    rw [findFirst_cons, h0]
    have hnmt : ∀ k, matchAt (t.drop k) = none := fun k => by
      simpa [List.drop_succ_cons] using hnm (k + 1)
    rw [ih hnmt]
    rfl

/-- An element that falsifies the predicate survives dropWhile. -/
theorem mem_dropWhile_of_ne (p : Char → Bool) :
    ∀ (l : List Char) (x : Char), x ∈ l → p x = false → x ∈ l.dropWhile p := by
  intro l
  induction l with
  | nil => intro x hx; intro _; simp at hx
  | cons c t ih =>
    intro x hx hpx
    rw [List.dropWhile_cons]
    by_cases hc : p c = true
    · rw [if_pos hc]
      rcases List.mem_cons.mp hx with rfl | hxt
      · rw [hpx] at hc; exact absurd hc (by simp)
      · exact ih x hxt hpx
    · rw [if_neg hc]; exact hx

/-- A string containing a non-whitespace character does not trim to empty. -/
theorem jsTrim_ne_nil_of_mem (l : List Char) (x : Char) (hx : x ∈ l)
    (hpx : isJsSpace x = false) : jsTrim l ≠ [] := by
  rw [jsTrim]
  intro hnil
  have h1 : x ∈ l.dropWhile isJsSpace := mem_dropWhile_of_ne _ l x hx hpx
  have h2 : x ∈ (l.dropWhile isJsSpace).reverse := List.mem_reverse.mpr h1
  have h3 : x ∈ ((l.dropWhile isJsSpace).reverse).dropWhile isJsSpace :=
    mem_dropWhile_of_ne _ _ x h2 hpx
  rw [List.reverse_eq_nil_iff.mp hnil] at h3
  simp at h3

/-- A body that is one non-blank prose part is sent to the translator as one
fragment, whatever the translator returns. -/
theorem runBody_single_prose (tr : List Char → Option (List Char))
    (body : List Char) (hspans : spans body = [(SKind.prose, body)])
    (hff : findFirst body = none) (htrim : jsTrim body ≠ []) :
    translateBodyCalls tr body = [body] := by
  rw [translateBodyCalls, runBody, parts, hspans]
  simp only [List.map_cons, List.map_nil, List.foldl_cons, List.foldl_nil]
  simp only [processPart, List.drop_zero, hff]
  rw [if_pos htrim]
  rcases tr body with _ | raw <;> simp

/-- Claim C4 (amended): a body containing a triple-backtick opening fence and
admitting no complete code match anywhere (so in particular the opener has no
matching closer) is segmented as a single prose span covering the whole body,
and its entire text is sent to the translator. -/
theorem c4_unterminated_fence_amended (body : List Char)
    (tr : List Char → Option (List Char))
    (hfence : ∃ p c, body = p ++ [bq, bq, bq] ++ c)
    (hnm : ∀ k, matchAt (body.drop k) = none) :
    spans body = [(SKind.prose, body)] ∧
    translateBodyCalls tr body = [body] := by
  obtain ⟨p, c, rfl⟩ := hfence
  have hne : p ++ [bq, bq, bq] ++ c ≠ [] := by simp
  have hspans := spans_noMatch (p ++ [bq, bq, bq] ++ c) hne hnm
  have hff := findFirst_none (p ++ [bq, bq, bq] ++ c) hnm
  have hmem : bq ∈ p ++ [bq, bq, bq] ++ c := by simp
  have htrim : jsTrim (p ++ [bq, bq, bq] ++ c) ≠ [] :=
    jsTrim_ne_nil_of_mem _ bq hmem (by decide)
  exact ⟨hspans, runBody_single_prose tr _ hspans hff htrim⟩

/-- Witness for the amended unterminated fence theorem at a concrete body
whose single run of four backticks holds the opener, has no closer, and
overlaps the remaining backtick, so the body has no complete match. -/
theorem c4_unterminated_fence_amended_witness :
    spans "x ````y".data = [(SKind.prose, "x ````y".data)] ∧
    translateBodyCalls (fun _ => none) "x ````y".data = ["x ````y".data] :=
  c4_unterminated_fence_amended "x ````y".data (fun _ => none)
    ⟨"x ".data, "`y".data, by decide⟩
    (noMatchList_sound "x ````y".data (by decide))

end NotionPublish
